import Mathlib

/-!
Verification of the wopr-plugin-twitch rate governor and outbound dispatcher.

The definitions below are a shallow embedding of:
  * `src/rate-limiter.ts` — class `RateLimiter` (token-bucket governor);
  * the `TwitchChatManager` dispatcher (`sendMessage` / `sendWhisper` /
    `splitMessagePublic`).

Time is modelled as an integer (milliseconds, as produced by `Date.now()`),
passed explicitly to each operation instead of being read from a clock.
Token counts are natural numbers: the source only decrements `tokens` under
a `tokens > 0` guard and otherwise assigns it from `maxTokens`, so the value
never goes negative.
-/

/-- State of `RateLimiter` (src/rate-limiter.ts, lines 6-16): the private
fields `maxTokens`, `refillIntervalMs`, `tokens`, `lastRefill`. -/
structure RateLimiter where
  maxTokens : Nat
  refillIntervalMs : Int
  tokens : Nat
  lastRefill : Int
  deriving Repr, DecidableEq

namespace RateLimiter

/-- Constructor (lines 10-16): `tokens = maxTokens`, `lastRefill = Date.now()`.
The source defaults are `maxTokens = 20`, `refillIntervalMs = 30000`. -/
def init (maxTokens : Nat) (refillIntervalMs : Int) (now : Int) : RateLimiter :=
  ⟨maxTokens, refillIntervalMs, maxTokens, now⟩

/-- `setModeratorMode` (lines 19-21): `this.maxTokens = isMod ? 100 : 20`.
No other field is touched. -/
def setModeratorMode (r : RateLimiter) (isMod : Bool) : RateLimiter :=
  { r with maxTokens := if isMod then 100 else 20 }

/-- Private `refill` (lines 41-47): if `now - lastRefill >= refillIntervalMs`
then `tokens = maxTokens; lastRefill = now`. -/
def refill (r : RateLimiter) (now : Int) : RateLimiter :=
  if r.refillIntervalMs ≤ now - r.lastRefill then
    { r with tokens := r.maxTokens, lastRefill := now }
  else r

/-- `tryConsume` (lines 24-31): lazy refill, then decrement under a
`tokens > 0` guard. Returns the boolean result and the updated state. -/
def tryConsume (r : RateLimiter) (now : Int) : Bool × RateLimiter :=
  let r1 := r.refill now
  if 0 < r1.tokens then (true, { r1 with tokens := r1.tokens - 1 })
  else (false, r1)

/-- One iteration of `waitForToken` (lines 34-39): attempt `tryConsume`; on
success resolve with the new state (`Sum.inl`), on denial compute the sleep
duration `Math.max(refillIntervalMs - (now - lastRefill), 100)` from the
post-attempt state (the source reads `this.lastRefill` after `tryConsume`
ran) and suspend (`Sum.inr` carries the state and the sleep duration). -/
def waitForTokenStep (r : RateLimiter) (now : Int) :
    RateLimiter ⊕ (RateLimiter × Int) :=
  let p := r.tryConsume now
  if p.1 then Sum.inl p.2
  else Sum.inr (p.2, max (p.2.refillIntervalMs - (now - p.2.lastRefill)) 100)

/-- A sequence of `tryConsume` calls at the given instants, threading the
state; returns the list of boolean results and the final state. -/
def tryConsumeTimes (r : RateLimiter) : List Int → List Bool × RateLimiter
  | [] => ([], r)
  | t :: ts =>
    let p := r.tryConsume t
    let q := tryConsumeTimes p.2 ts
    (p.1 :: q.1, q.2)

theorem refill_of_lt (r : RateLimiter) (now : Int)
    (h : now - r.lastRefill < r.refillIntervalMs) : r.refill now = r := by
  simp [refill, not_le.mpr h]

theorem refill_of_le (r : RateLimiter) (now : Int)
    (h : r.refillIntervalMs ≤ now - r.lastRefill) :
    r.refill now = { r with tokens := r.maxTokens, lastRefill := now } := by
  simp [refill, h]

/-- Within one window (every attempt strictly before the rollover instant),
a run of `tryConsume` calls yields `min tokens n` grants followed by
denials, ends with `tokens - n` tokens, and moves no other field. -/
theorem tryConsumeTimes_in_window (r : RateLimiter) (ts : List Int)
    (h : ∀ t ∈ ts, t - r.lastRefill < r.refillIntervalMs) :
    (r.tryConsumeTimes ts).1 =
      List.replicate (min r.tokens ts.length) true ++
        List.replicate (ts.length - r.tokens) false ∧
    (r.tryConsumeTimes ts).2 = { r with tokens := r.tokens - ts.length } := by
  induction ts generalizing r with
  | nil =>
    simp [tryConsumeTimes]
  | cons t ts ih =>
    have hne : r.refill t = r := refill_of_lt r t (h t (List.mem_cons_self t ts))
    cases hk : r.tokens with
    | zero =>
      have step : r.tryConsume t = (false, r) := by
        simp [tryConsume, hne, hk]
      have hrest : ∀ u ∈ ts, u - r.lastRefill < r.refillIntervalMs :=
        fun u hu => h u (List.mem_cons_of_mem t hu)
      obtain ⟨h1, h2⟩ := ih r hrest
      refine ⟨?_, ?_⟩
      · simp [tryConsumeTimes, step, h1, hk, List.replicate_succ]
      · simp [tryConsumeTimes, step, h2, hk]
    | succ k =>
      have step : r.tryConsume t = (true, { r with tokens := k }) := by
        simp [tryConsume, hne, hk]
      have hrest : ∀ u ∈ ts,
          u - ({ r with tokens := k } : RateLimiter).lastRefill <
            ({ r with tokens := k } : RateLimiter).refillIntervalMs :=
        fun u hu => h u (List.mem_cons_of_mem t hu)
      obtain ⟨h1, h2⟩ := ih { r with tokens := k } hrest
      refine ⟨?_, ?_⟩
      · simp only [tryConsumeTimes, step, h1, hk, List.length_cons]
        have : min (k + 1) (ts.length + 1) = min k ts.length + 1 := by omega
        rw [this, List.replicate_succ]
        simp [Nat.succ_sub_succ]
      · simp only [tryConsumeTimes, step, h2, hk, List.length_cons]
        congr 1
        omega

end RateLimiter

/-- C1: for a governor holding `c` tokens at capacity `c`, any `n ≤ c`
consecutive `tryConsume` calls inside one refill window all return true, and
a run of `c + 1` calls inside the window returns `c` trues followed by one
false. -/
theorem governor_admits_capacity_then_denies (r : RateLimiter) (c : Nat)
    (_hcap : r.maxTokens = c) (htok : r.tokens = c) (ts : List Int)
    (hwin : ∀ t ∈ ts, t - r.lastRefill < r.refillIntervalMs) :
    (ts.length ≤ c → (r.tryConsumeTimes ts).1 = List.replicate ts.length true) ∧
    (ts.length = c + 1 →
      (r.tryConsumeTimes ts).1 = List.replicate c true ++ [false]) := by
  obtain ⟨h1, _⟩ := RateLimiter.tryConsumeTimes_in_window r ts hwin
  constructor
  · intro hn
    rw [h1, htok]
    have hm : min c ts.length = ts.length := by omega
    have hz : ts.length - c = 0 := by omega
    simp [hm, hz]
  · intro hn
    rw [h1, htok, hn]
    have hm : min c (c + 1) = c := by omega
    have hz : c + 1 - c = 1 := by omega
    simp [hm, hz]

/-- C1 witness: a fresh capacity-3 governor grants 3 calls in-window and
denies the 4th. -/
theorem governor_admits_capacity_then_denies_witness :
    ((RateLimiter.init 3 30000 0).tryConsumeTimes [1, 2, 3, 4]).1 =
      List.replicate 3 true ++ [false] :=
  (governor_admits_capacity_then_denies (RateLimiter.init 3 30000 0) 3
    (by decide) (by decide) [1, 2, 3, 4] (by decide)).2 (by decide)

/-- C6: `setModeratorMode` sets `maxTokens` to 100 (moderator) or 20
(regular) and leaves `tokens`, `lastRefill` and `refillIntervalMs`
untouched. -/
theorem setModeratorMode_frame (r : RateLimiter) (isMod : Bool) :
    (r.setModeratorMode isMod).maxTokens = (if isMod then 100 else 20) ∧
    (r.setModeratorMode isMod).tokens = r.tokens ∧
    (r.setModeratorMode isMod).lastRefill = r.lastRefill ∧
    (r.setModeratorMode isMod).refillIntervalMs = r.refillIntervalMs := by
  cases isMod <;> simp [RateLimiter.setModeratorMode]

/-- C5: admission timing of `waitForToken`. With tokens available (on a
governor with positive capacity) the first `tryConsume` attempt succeeds, so
`waitForToken` resolves with no sleep; exhausted and strictly inside the
window, every attempt is denied, so it cannot resolve before
`refillIntervalMs` has elapsed since `lastRefill`; once the window has
elapsed the attempt succeeds; and every denied attempt suspends for
`max (refillIntervalMs - (now - lastRefill), 100)`, never less than 100. -/
theorem waitForToken_timing (r : RateLimiter) (now : Int) :
    (0 < r.tokens → 0 < r.maxTokens → (r.tryConsume now).1 = true) ∧
    (r.tokens = 0 → now - r.lastRefill < r.refillIntervalMs →
      (r.tryConsume now).1 = false) ∧
    (r.tokens = 0 → 0 < r.maxTokens → r.refillIntervalMs ≤ now - r.lastRefill →
      (r.tryConsume now).1 = true) ∧
    (∀ r' s, r.waitForTokenStep now = Sum.inr (r', s) →
      s = max (r'.refillIntervalMs - (now - r'.lastRefill)) 100 ∧ 100 ≤ s) := by
  refine ⟨?_, ?_, ?_, ?_⟩
  · intro ht hm
    by_cases h : r.refillIntervalMs ≤ now - r.lastRefill
    · simp [RateLimiter.tryConsume, RateLimiter.refill_of_le r now h, hm]
    · simp [RateLimiter.tryConsume,
        RateLimiter.refill_of_lt r now (not_le.mp h), ht]
  · intro ht hlt
    simp [RateLimiter.tryConsume, RateLimiter.refill_of_lt r now hlt, ht]
  · intro ht hm hle
    simp [RateLimiter.tryConsume, RateLimiter.refill_of_le r now hle, hm]
  · intro r' s h
    by_cases hb : (r.tryConsume now).1
    · simp [RateLimiter.waitForTokenStep, hb] at h
    · simp [RateLimiter.waitForTokenStep, hb] at h
      obtain ⟨h1, h2⟩ := h
      subst h1
      subst h2
      exact ⟨rfl, le_max_right _ _⟩

/-- C5 witness: a fresh default governor admits at once; the same governor
with zero tokens is denied mid-window and admitted at the window boundary. -/
theorem waitForToken_timing_witness :
    ((RateLimiter.init 20 30000 0).tryConsume 5).1 = true ∧
    (({ RateLimiter.init 20 30000 0 with tokens := 0 } :
        RateLimiter).tryConsume 5).1 = false ∧
    (({ RateLimiter.init 20 30000 0 with tokens := 0 } :
        RateLimiter).tryConsume 30000).1 = true :=
  ⟨(waitForToken_timing (RateLimiter.init 20 30000 0) 5).1
      (by decide) (by decide),
   (waitForToken_timing { RateLimiter.init 20 30000 0 with tokens := 0 } 5).2.1
      (by decide) (by decide),
   (waitForToken_timing
      { RateLimiter.init 20 30000 0 with tokens := 0 } 30000).2.2.1
      (by decide) (by decide) (by decide)⟩

/-- C7: the tier set by `setModeratorMode` is realized at the next refill:
from any state, after `setModeratorMode isMod`, a call at or past the window
boundary refills to the new capacity (100 if moderator, 20 otherwise), and
exactly that many consecutive calls succeed before the next denial. -/
theorem tier_realized_at_next_refill (r : RateLimiter) (isMod : Bool)
    (t : Int) (ts : List Int)
    (hroll : r.refillIntervalMs ≤ t - r.lastRefill)
    (hwin : ∀ u ∈ ts, u - t < r.refillIntervalMs)
    (hlen : ts.length = (if isMod then 100 else 20)) :
    ((r.setModeratorMode isMod).tryConsumeTimes (t :: ts)).1 =
      List.replicate (if isMod then 100 else 20) true ++ [false] := by
  set c : Nat := if isMod then 100 else 20 with hc
  have hcpos : 0 < c := by cases isMod <;> simp [hc]
  set r0 : RateLimiter := r.setModeratorMode isMod with hr0
  have hmax : r0.maxTokens = c := by simp [hr0, RateLimiter.setModeratorMode, hc]
  have hiv : r0.refillIntervalMs = r.refillIntervalMs := rfl
  have hlast : r0.lastRefill = r.lastRefill := rfl
  have hfire : r0.refill t =
      { r0 with tokens := r0.maxTokens, lastRefill := t } :=
    RateLimiter.refill_of_le r0 t (by rw [hiv, hlast]; exact hroll)
  have hstep : r0.tryConsume t =
      (true, { r0 with tokens := c - 1, lastRefill := t }) := by
    simp only [RateLimiter.tryConsume, hfire, hmax]
    simp [hcpos]
  set r1 : RateLimiter := { r0 with tokens := c - 1, lastRefill := t } with hr1
  have hwin1 : ∀ u ∈ ts, u - r1.lastRefill < r1.refillIntervalMs := by
    intro u hu
    simpa [hr1, hiv] using hwin u hu
  obtain ⟨h1, _⟩ := RateLimiter.tryConsumeTimes_in_window r1 ts hwin1
  have htok1 : r1.tokens = c - 1 := rfl
  simp only [RateLimiter.tryConsumeTimes, hstep, ← hr1]
  rw [h1, htok1, hlen]
  have hm : min (c - 1) c = c - 1 := by omega
  have hz : c - (c - 1) = 1 := by omega
  rw [hm, hz]
  have hrep : List.replicate c true = true :: List.replicate (c - 1) true := by
    conv_lhs => rw [show c = (c - 1) + 1 by omega]
    rw [List.replicate_succ]
  rw [hrep]
  simp

/-- C7 witness: constructed at capacity 100, demoted with
`setModeratorMode false`, then rolled over: exactly 20 grants, then denial. -/
theorem tier_realized_at_next_refill_witness :
    (((RateLimiter.init 100 30000 0).setModeratorMode false).tryConsumeTimes
        (30000 :: List.replicate 20 30001)).1 =
      List.replicate (if false then 100 else 20) true ++ [false] :=
  tier_realized_at_next_refill (RateLimiter.init 100 30000 0) false
    30000 (List.replicate 20 30001) (by decide) (by decide) (by decide)

/-- C8 counterexample: the invariant `tokens ≤ capacity` is not preserved by
lowering the tier. Construct at capacity 100 (tokens = 100) and call
`setModeratorMode false`: capacity drops to 20 while tokens stays 100. -/
theorem tokens_le_capacity_violated_by_tier_lowering :
    ¬ (((RateLimiter.init 100 30000 0).setModeratorMode false).tokens ≤
        ((RateLimiter.init 100 30000 0).setModeratorMode false).maxTokens) := by
  decide

/-- C8 amended: `tokens` is a natural number (never negative), and
`tokens ≤ capacity` is established at construction and preserved by
`tryConsume` (hence by each `waitForToken` attempt). `setModeratorMode`
keeps `tokens` unchanged — so lowering the tier below the current token
count breaks `tokens ≤ capacity` — and the bound is re-established by the
first `tryConsume` at or past the window boundary. -/
theorem tokens_invariant_amended (r : RateLimiter) (now : Int) (c : Nat)
    (iv : Int) (isMod : Bool) :
    (RateLimiter.init c iv now).tokens ≤ (RateLimiter.init c iv now).maxTokens ∧
    (r.tokens ≤ r.maxTokens →
      ((r.tryConsume now).2).tokens ≤ ((r.tryConsume now).2).maxTokens) ∧
    (r.setModeratorMode isMod).tokens = r.tokens ∧
    (r.refillIntervalMs ≤ now - r.lastRefill →
      (((r.setModeratorMode isMod).tryConsume now).2).tokens ≤
        (((r.setModeratorMode isMod).tryConsume now).2).maxTokens) := by
  refine ⟨le_refl _, ?_, rfl, ?_⟩
  · intro hle
    by_cases h : r.refillIntervalMs ≤ now - r.lastRefill
    · simp only [RateLimiter.tryConsume, RateLimiter.refill_of_le r now h]
      split <;> simp
    · simp only [RateLimiter.tryConsume,
        RateLimiter.refill_of_lt r now (not_le.mp h)]
      split <;> simp <;> omega
  · intro h
    have h' : (r.setModeratorMode isMod).refillIntervalMs ≤
        now - (r.setModeratorMode isMod).lastRefill := h
    simp only [RateLimiter.tryConsume,
      RateLimiter.refill_of_le (r.setModeratorMode isMod) now h']
    split <;> simp

/-- C8 amended witness: after demotion from capacity 100, the first call at
the window boundary restores `tokens ≤ capacity`. -/
theorem tokens_invariant_amended_witness :
    (((RateLimiter.init 100 30000 0).setModeratorMode false).tryConsume
        30000).2.tokens ≤
      (((RateLimiter.init 100 30000 0).setModeratorMode false).tryConsume
        30000).2.maxTokens :=
  (tokens_invariant_amended (RateLimiter.init 100 30000 0) 30000 5 7
    false).2.2.2 (by decide)

/-- Characters stripped by JavaScript `trimStart`: ECMA-262 WhiteSpace
(TAB, VT, FF, SP, NBSP, ZWNBSP and the Unicode Space_Separator category,
which is U+0020, U+00A0, U+1680, U+2000 to U+200A, U+202F, U+205F, U+3000)
together with the LineTerminator characters LF, CR, U+2028 and U+2029. -/
def isJSWhite (c : Char) : Bool :=
  c = ' ' || c = '\t' || c = '\n' || c = '\r' || c = '\x0b' || c = '\x0c' ||
    c = '\u00A0' || c = '\u1680' ||
    (0x2000 ≤ c.toNat && c.toNat ≤ 0x200A) ||
    c = '\u2028' || c = '\u2029' || c = '\u202F' || c = '\u205F' ||
    c = '\u3000' || c = '\uFEFF'

/-- `String.prototype.trimStart`: strip leading whitespace. -/
def trimStart (s : List Char) : List Char :=
  s.dropWhile isJSWhite

/-- `remaining.lastIndexOf(" ", pos)`: the largest index `i ≤ pos` holding a
space, or `-1` when no such index exists. -/
def lastSpaceFrom (s : List Char) : Nat → Int
  | 0 => if s.get? 0 = some ' ' then 0 else -1
  | n + 1 =>
    if s.get? (n + 1) = some ' ' then ((n + 1 : Nat) : Int)
    else lastSpaceFrom s n

/-- The split index chosen by one iteration of `splitMessagePublic`
(part_003 lines 191-192): `remaining.lastIndexOf(" ", maxLen)`, forced to
`maxLen` when below `0.6 * maxLen` (in particular when it is `-1`). The
JavaScript comparison `splitAt < maxLen * 0.6` is modelled exactly as
`splitAt * 5 < maxLen * 3`; at the source's call site `maxLen = 500` the
double product `500 * 0.6` is exactly `300`, so the exact rational model and
the floating-point source agree. -/
def chosenSplit (remaining : List Char) (maxLen : Nat) : Nat :=
  let sp := lastSpaceFrom remaining maxLen
  if sp * 5 < (maxLen : Int) * 3 then maxLen else sp.toNat

/-- The `while` loop of `splitMessagePublic` (lines 185-195), with explicit
fuel standing in for the unbounded source loop: each iteration pushes one
chunk, drops it from the remainder and strips leading whitespace.
`splitMessage` runs the loop with fuel `text.length`; for `maxLen ≥ 1` that
fuel is shown sufficient (`splitLoop_fuel_sufficient`). -/
def splitLoop (maxLen : Nat) : Nat → List Char → List (List Char)
  | 0, _ => []
  | fuel + 1, remaining =>
    if remaining.length = 0 then []
    else if remaining.length ≤ maxLen then [remaining]
    else
      remaining.take (chosenSplit remaining maxLen) ::
        splitLoop maxLen fuel
          (trimStart (remaining.drop (chosenSplit remaining maxLen)))

/-- `splitMessagePublic(text, maxLen)` (part_003 lines 179-198). -/
def splitMessage (text : List Char) (maxLen : Nat) : List (List Char) :=
  if text.length ≤ maxLen then [text] else splitLoop maxLen text.length text

/-- `TWITCH_MAX_MSG_LENGTH` (part_003 line 10). -/
def TWITCH_MAX_MSG_LENGTH : Nat := 500

theorem lastSpaceFrom_le (s : List Char) (n : Nat) :
    lastSpaceFrom s n ≤ (n : Int) := by
  induction n with
  | zero =>
    simp only [lastSpaceFrom]
    split <;> omega
  | succ n ih =>
    simp only [lastSpaceFrom]
    split
    · omega
    · have : (n : Int) ≤ ((n + 1 : Nat) : Int) := by push_cast; omega
      exact le_trans ih this

theorem chosenSplit_pos (remaining : List Char) (maxLen : Nat)
    (hm : 1 ≤ maxLen) : 1 ≤ chosenSplit remaining maxLen := by
  simp only [chosenSplit]
  split
  · exact hm
  · rename_i hnot
    omega

theorem chosenSplit_le (remaining : List Char) (maxLen : Nat) :
    chosenSplit remaining maxLen ≤ maxLen := by
  simp only [chosenSplit]
  split
  · exact le_refl _
  · have := lastSpaceFrom_le remaining maxLen
    omega

theorem trimStart_length_le (s : List Char) : (trimStart s).length ≤ s.length := by
  induction s with
  | nil => simp [trimStart]
  | cons c t ih =>
    rw [trimStart, List.dropWhile_cons]
    split
    · exact Nat.le_succ_of_le (by simpa [trimStart] using ih)
    · simp

theorem trimDrop_shrink (remaining : List Char) (maxLen : Nat)
    (hm : 1 ≤ maxLen) (hr : 1 ≤ remaining.length) :
    (trimStart (remaining.drop (chosenSplit remaining maxLen))).length <
      remaining.length := by
  have h1 : 1 ≤ chosenSplit remaining maxLen :=
    chosenSplit_pos remaining maxLen hm
  have h2 : (trimStart (remaining.drop (chosenSplit remaining maxLen))).length ≤
      (remaining.drop (chosenSplit remaining maxLen)).length :=
    trimStart_length_le _
  have h3 : (remaining.drop (chosenSplit remaining maxLen)).length =
      remaining.length - chosenSplit remaining maxLen := by
    simp
  omega

/-- The splitting algorithm exactly as the spec words it (§4.2): if the text
fits in `maxLen` it is the only chunk; otherwise emit the prefix up to the
split point (the last space at or before `maxLen`, forced to `maxLen` when
it falls below `0.6 * maxLen` or no space exists), strip leading whitespace
from the remainder, and repeat until the remainder is empty. Defined by
well-founded recursion on the length of the remainder, which needs
`maxLen ≥ 1`. -/
def specLoop (maxLen : Nat) (hm : 1 ≤ maxLen) (remaining : List Char) :
    List (List Char) :=
  if _h0 : remaining.length = 0 then []
  else if remaining.length ≤ maxLen then [remaining]
  else
    remaining.take (chosenSplit remaining maxLen) ::
      specLoop maxLen hm (trimStart (remaining.drop (chosenSplit remaining maxLen)))
termination_by remaining.length
decreasing_by
  exact trimDrop_shrink remaining maxLen hm (by omega)

/-- Top level of the spec's splitting algorithm: step 1 (§4.2) returns the
text unchanged when it fits, otherwise the loop runs. -/
def specSplit (maxLen : Nat) (hm : 1 ≤ maxLen) (text : List Char) :
    List (List Char) :=
  if text.length ≤ maxLen then [text] else specLoop maxLen hm text

theorem specLoop_nil (maxLen : Nat) (hm : 1 ≤ maxLen) (remaining : List Char)
    (h0 : remaining.length = 0) : specLoop maxLen hm remaining = [] := by
  rw [specLoop]
  simp [h0]

theorem specLoop_last (maxLen : Nat) (hm : 1 ≤ maxLen) (remaining : List Char)
    (h0 : remaining.length ≠ 0) (h1 : remaining.length ≤ maxLen) :
    specLoop maxLen hm remaining = [remaining] := by
  rw [specLoop]
  simp [h0, h1]

theorem specLoop_step (maxLen : Nat) (hm : 1 ≤ maxLen) (remaining : List Char)
    (h1 : ¬ remaining.length ≤ maxLen) :
    specLoop maxLen hm remaining =
      remaining.take (chosenSplit remaining maxLen) ::
        specLoop maxLen hm
          (trimStart (remaining.drop (chosenSplit remaining maxLen))) := by
  have h0 : remaining.length ≠ 0 := by omega
  rw [specLoop]
  simp [h0, h1]

/-- With fuel at least the length of the remainder and `maxLen ≥ 1`, the
fueled source loop agrees with the spec's well-founded recursion. -/
theorem splitLoop_eq_specLoop (maxLen : Nat) (hm : 1 ≤ maxLen) :
    ∀ fuel remaining, remaining.length ≤ fuel →
      splitLoop maxLen fuel remaining = specLoop maxLen hm remaining := by
  intro fuel
  induction fuel with
  | zero =>
    intro remaining h
    have h0 : remaining.length = 0 := by omega
    rw [specLoop_nil maxLen hm remaining h0]
    have : remaining = [] := List.eq_nil_of_length_eq_zero h0
    subst this
    rfl
  | succ fuel ih =>
    intro remaining h
    by_cases h0 : remaining.length = 0
    · rw [specLoop_nil maxLen hm remaining h0]
      simp [splitLoop, h0]
    · by_cases h1 : remaining.length ≤ maxLen
      · rw [specLoop_last maxLen hm remaining h0 h1]
        simp [splitLoop, h0, h1]
      · have hlt := trimDrop_shrink remaining maxLen hm (by omega)
        rw [specLoop_step maxLen hm remaining h1]
        simp only [splitLoop, h0, if_false, h1, ite_false]
        rw [ih _ (by omega)]

theorem splitLoop_chunk_le (maxLen : Nat) :
    ∀ fuel remaining c, c ∈ splitLoop maxLen fuel remaining →
      c.length ≤ maxLen := by
  intro fuel
  induction fuel with
  | zero =>
    intro remaining c hc
    simp [splitLoop] at hc
  | succ fuel ih =>
    intro remaining c hc
    by_cases h0 : remaining.length = 0
    · simp [splitLoop, h0] at hc
    · by_cases h1 : remaining.length ≤ maxLen
      · simp [splitLoop, h0, h1] at hc
        subst hc
        exact h1
      · simp only [splitLoop, h0, if_false, h1, ite_false,
          List.mem_cons] at hc
        rcases hc with hc | hc
        · subst hc
          have ht : (remaining.take (chosenSplit remaining maxLen)).length ≤
              chosenSplit remaining maxLen := by
            simp [List.length_take]
          exact le_trans ht (chosenSplit_le remaining maxLen)
        · exact ih _ _ hc

/-- C3: `splitMessagePublic` follows the spec's splitting algorithm. For
`maxLen ≥ 1` the fueled source loop equals the spec's recursion `specSplit`
(single chunk when the text fits; otherwise split at the last space at or
before `maxLen`, forced to `maxLen` when that point is below `0.6 * maxLen`
or absent, stripping leading whitespace from the remainder), and every
emitted chunk has length at most `maxLen`. -/
theorem split_follows_spec_algorithm (text : List Char) (maxLen : Nat)
    (hm : 1 ≤ maxLen) :
    splitMessage text maxLen = specSplit maxLen hm text ∧
    (text.length ≤ maxLen → splitMessage text maxLen = [text]) ∧
    (∀ c ∈ splitMessage text maxLen, c.length ≤ maxLen) := by
  refine ⟨?_, ?_, ?_⟩
  · by_cases h : text.length ≤ maxLen
    · simp [splitMessage, specSplit, h]
    · simp only [splitMessage, specSplit, h, ite_false]
      exact splitLoop_eq_specLoop maxLen hm text.length text (le_refl _)
  · intro h
    simp [splitMessage, h]
  · intro c hc
    by_cases h : text.length ≤ maxLen
    · simp [splitMessage, h] at hc
      subst hc
      exact h
    · simp only [splitMessage, h, ite_false] at hc
      exact splitLoop_chunk_le maxLen text.length text c hc

/-- C3 witness: on a concrete oversized text the source splitter and the
spec's algorithm agree. -/
theorem split_follows_spec_algorithm_witness :
    splitMessage ['a', 'b', 'c'] 2 = specSplit 2 (by decide) ['a', 'b', 'c'] :=
  (split_follows_spec_algorithm ['a', 'b', 'c'] 2 (by decide)).1

/-- C10: the splitter terminates for `maxLen ≥ 1`. The chosen split point is
always at least 1, so each iteration of the loop removes at least one
character from the remainder, and fuel equal to the text's length is enough:
any larger fuel computes the same (finite) chunk sequence. -/
theorem split_terminates (maxLen : Nat) (hm : 1 ≤ maxLen) :
    (∀ remaining, 1 ≤ chosenSplit remaining maxLen) ∧
    (∀ remaining : List Char, maxLen < remaining.length →
      (trimStart (remaining.drop (chosenSplit remaining maxLen))).length <
        remaining.length) ∧
    (∀ (text : List Char) (fuel : Nat), text.length ≤ fuel →
      splitLoop maxLen fuel text = splitLoop maxLen text.length text) := by
  refine ⟨fun remaining => chosenSplit_pos remaining maxLen hm, ?_, ?_⟩
  · intro remaining h
    exact trimDrop_shrink remaining maxLen hm (by omega)
  · intro text fuel hf
    rw [splitLoop_eq_specLoop maxLen hm fuel text hf,
      splitLoop_eq_specLoop maxLen hm text.length text (le_refl _)]

/-- C10 witness: extra fuel does not change the chunks of a concrete text. -/
theorem split_terminates_witness :
    splitLoop 2 50 ['a', 'b', 'c', 'd', 'e'] =
      splitLoop 2 (['a', 'b', 'c', 'd', 'e'] : List Char).length
        ['a', 'b', 'c', 'd', 'e'] :=
  (split_terminates 2 (by decide)).2.2 ['a', 'b', 'c', 'd', 'e'] 50 (by decide)

/-- Word splitter used to state whitespace normalization: accumulate the
current word (reversed) and cut at whitespace, dropping empty words. -/
def wsWordsAux : List Char → List Char → List (List Char)
  | [], cur => if cur.isEmpty then [] else [cur.reverse]
  | c :: rest, cur =>
    if isJSWhite c then
      if cur.isEmpty then wsWordsAux rest []
      else cur.reverse :: wsWordsAux rest []
    else wsWordsAux rest (c :: cur)

/-- Whitespace normalization: collapse whitespace runs to single spaces and
trim both ends (the comparison the spec's round-trip property uses). -/
def wsNormalize (s : List Char) : List Char :=
  List.intercalate [' '] (wsWordsAux s [])

/-- The spec's 600-character repeated-word text: `"abcde "` 100 times. -/
def wordText600 : List Char :=
  (List.replicate 100 ("abcde ".toList)).flatten

theorem trimStart_of_no_ws (s : List Char)
    (h : ∀ c ∈ s, isJSWhite c = false) : trimStart s = s := by
  cases s with
  | nil => rfl
  | cons c t =>
    rw [trimStart, List.dropWhile_cons]
    simp [h c (List.mem_cons_self c t)]

/-- On whitespace-free text every split is forced, `trimStart` strips
nothing, and the chunks concatenate back to the input exactly. -/
theorem splitLoop_flatten_of_no_ws (maxLen : Nat) (hm : 1 ≤ maxLen) :
    ∀ fuel remaining, remaining.length ≤ fuel →
      (∀ c ∈ remaining, isJSWhite c = false) →
      (splitLoop maxLen fuel remaining).flatten = remaining := by
  intro fuel
  induction fuel with
  | zero =>
    intro rem h _
    have hnil : rem = [] := List.eq_nil_of_length_eq_zero (by omega)
    subst hnil
    rfl
  | succ fuel ih =>
    intro rem h hws
    by_cases h0 : rem.length = 0
    · have hnil : rem = [] := List.eq_nil_of_length_eq_zero h0
      subst hnil
      rfl
    · by_cases h1 : rem.length ≤ maxLen
      · simp [splitLoop, h0, h1]
      · have hk := chosenSplit_pos rem maxLen hm
        have hsub : ∀ c ∈ rem.drop (chosenSplit rem maxLen),
            isJSWhite c = false :=
          fun c hc => hws c (List.drop_subset _ _ hc)
        have htrim : trimStart (rem.drop (chosenSplit rem maxLen)) =
            rem.drop (chosenSplit rem maxLen) := trimStart_of_no_ws _ hsub
        have hlen : (rem.drop (chosenSplit rem maxLen)).length ≤ fuel := by
          have := List.length_drop (chosenSplit rem maxLen) rem
          omega
        simp only [splitLoop, h0, if_false, h1, ite_false, List.flatten_cons]
        rw [htrim, ih _ hlen hsub, List.take_append_drop]

set_option maxRecDepth 10000

/-- C4 counterexample: the space-rejoin round trip fails on a text that does
contain a space. In `'a' :: ' ' :: 599 b's` (601 characters) the only space
sits at index 1, below `0.6 * 500`, so the split is forced at index 500 in
the middle of the run of b's; rejoining the two chunks with a single space
yields a word sequence different from the original even after whitespace
normalization (a 499-run and a 101-run of b's instead of one 599-run). -/
theorem space_rejoin_not_round_trip :
    ' ' ∈ ('a' :: ' ' :: List.replicate 599 'b') ∧
    wsNormalize (List.intercalate [' ']
        (splitMessage ('a' :: ' ' :: List.replicate 599 'b') 500)) ≠
      wsNormalize ('a' :: ' ' :: List.replicate 599 'b') := by
  constructor
  · decide
  · decide

/-- C4 amended: content preservation of the splitter. If the text contains
no whitespace at all, concatenating the chunks of `splitMessage text maxLen`
with no separator reproduces the text exactly — no character dropped or
duplicated — and in particular the 600-character spaceless text yields two
chunks (500 + 100) that concatenate back to it. For the 600-character
repeated-word text, rejoining the chunks with single spaces and normalizing
whitespace reproduces the normalized original. (For arbitrary texts that
contain spaces the space-rejoin round trip does not hold: a forced mid-word
split makes the rejoin insert a space inside a word.) -/
theorem split_round_trip_amended (text : List Char) (maxLen : Nat) :
    (1 ≤ maxLen → (∀ c ∈ text, isJSWhite c = false) →
      (splitMessage text maxLen).flatten = text) ∧
    (2 ≤ (splitMessage (List.replicate 600 'a') 500).length ∧
      (splitMessage (List.replicate 600 'a') 500).flatten =
        List.replicate 600 'a') ∧
    (2 ≤ (splitMessage wordText600 500).length ∧
      wsNormalize (List.intercalate [' '] (splitMessage wordText600 500)) =
        wsNormalize wordText600) := by
  refine ⟨?_, ⟨by decide, by decide⟩, ⟨by decide, by decide⟩⟩
  intro hm hws
  by_cases h : text.length ≤ maxLen
  · simp [splitMessage, h]
  · simp only [splitMessage, h, ite_false]
    exact splitLoop_flatten_of_no_ws maxLen hm text.length text (le_refl _) hws

/-- C4 witness: the general no-whitespace concatenation conjunct applied to
the concrete 600-character spaceless text. -/
theorem split_round_trip_amended_witness :
    (splitMessage (List.replicate 600 'a') 500).flatten =
      List.replicate 600 'a' :=
  (split_round_trip_amended (List.replicate 600 'a') 500).1
    (by decide) (by decide)

/-- Events observable during one dispatch call: a governor admission
(`waitForToken` resolving), a chunk delivered by the transport, or a chunk
on which the transport threw. -/
inductive DispatchEvent (E : Type) where
  | admission
  | delivered (chunk : List Char)
  | failed (chunk : List Char) (e : E)
  deriving Repr, DecidableEq

/-- The dispatch loop shared by `sendMessage` (part_003 lines 159-162) and
`sendWhisper` (lines 172-175): for each chunk in order, await one governor
admission (`await this.rateLimiter.waitForToken()`), then hand the chunk to
the transport (`say` / `whispers.sendWhisper`, modelled by `f`); a transport
rejection aborts the loop and propagates the error unchanged. Returns the
event trace and the overall outcome. -/
def dispatchLoop {E : Type} (f : List Char → Except E Unit) :
    List (List Char) → List (DispatchEvent E) × Except E Unit
  | [] => ([], Except.ok ())
  | c :: cs =>
    match f c with
    | Except.ok _ =>
      let q := dispatchLoop f cs
      (DispatchEvent.admission :: DispatchEvent.delivered c :: q.1, q.2)
    | Except.error e =>
      ([DispatchEvent.admission, DispatchEvent.failed c e], Except.error e)

/-- Body of `sendMessage` / `sendWhisper` (part_003 lines 155-176): split
the text at `TWITCH_MAX_MSG_LENGTH`, then run the dispatch loop over the
chunks in order. -/
def sendMessageRun {E : Type} (f : List Char → Except E Unit)
    (text : List Char) : List (DispatchEvent E) × Except E Unit :=
  dispatchLoop f (splitMessage text TWITCH_MAX_MSG_LENGTH)

def isAdmission {E : Type} : DispatchEvent E → Bool
  | DispatchEvent.admission => true
  | _ => false

def deliveredOf {E : Type} : DispatchEvent E → Option (List Char)
  | DispatchEvent.delivered c => some c
  | _ => none

theorem dispatchLoop_all_ok {E : Type} (f : List Char → Except E Unit)
    (hf : ∀ c, f c = Except.ok ()) (cs : List (List Char)) :
    dispatchLoop f cs =
      (cs.flatMap
        (fun c => [DispatchEvent.admission, DispatchEvent.delivered c]),
       Except.ok ()) := by
  induction cs with
  | nil => rfl
  | cons c cs ih =>
    simp [dispatchLoop, hf c, ih]

theorem filterMap_deliveredOf_trace {E : Type} (cs : List (List Char)) :
    (cs.flatMap (fun c =>
        [DispatchEvent.admission (E := E), DispatchEvent.delivered c])).filterMap
      deliveredOf = cs := by
  induction cs with
  | nil => rfl
  | cons c cs ih =>
    simp [List.flatMap_cons, deliveredOf, ih]

theorem countP_isAdmission_trace {E : Type} (cs : List (List Char)) :
    (cs.flatMap (fun c =>
        [DispatchEvent.admission (E := E), DispatchEvent.delivered c])).countP
      (fun e => isAdmission e) = cs.length := by
  induction cs with
  | nil => rfl
  | cons c cs ih =>
    rw [List.flatMap_cons, List.countP_append, ih]
    have h2 : List.countP (fun e => isAdmission e)
        [DispatchEvent.admission (E := E), DispatchEvent.delivered c] = 1 := rfl
    rw [h2]
    simp [Nat.add_comm]

/-- C2: when the transport accepts every chunk, one dispatch emits exactly
the chunks of `split(text, 500)`, strictly in split order, one at a time,
with exactly one governor admission immediately before each chunk: the
whole event trace is `[admission, delivered c]` for each chunk `c` in
order, the delivered chunks read back as `splitMessage text 500`, and the
number of admissions equals the number of chunks. -/
theorem dispatch_in_order {E : Type} (f : List Char → Except E Unit)
    (text : List Char) (hf : ∀ c, f c = Except.ok ()) :
    (sendMessageRun f text).1 =
      (splitMessage text TWITCH_MAX_MSG_LENGTH).flatMap
        (fun c => [DispatchEvent.admission, DispatchEvent.delivered c]) ∧
    (sendMessageRun f text).2 = Except.ok () ∧
    (sendMessageRun f text).1.filterMap deliveredOf =
      splitMessage text TWITCH_MAX_MSG_LENGTH ∧
    (sendMessageRun f text).1.countP (fun e => isAdmission e) =
      (splitMessage text TWITCH_MAX_MSG_LENGTH).length := by
  have h := dispatchLoop_all_ok f hf (splitMessage text TWITCH_MAX_MSG_LENGTH)
  refine ⟨?_, ?_, ?_, ?_⟩
  · rw [sendMessageRun, h]
  · rw [sendMessageRun, h]
  · rw [sendMessageRun, h]
    exact filterMap_deliveredOf_trace _
  · rw [sendMessageRun, h]
    exact countP_isAdmission_trace _

/-- C2 witness: a short message dispatched over an always-accepting
transport produces the single admission-then-deliver pair. -/
theorem dispatch_in_order_witness :
    (sendMessageRun (fun _ => (Except.ok () : Except Nat Unit)) ['h', 'i']).1 =
      (splitMessage ['h', 'i'] TWITCH_MAX_MSG_LENGTH).flatMap
        (fun c => [DispatchEvent.admission, DispatchEvent.delivered c]) :=
  (dispatch_in_order (fun _ => Except.ok ()) ['h', 'i'] (fun _ => rfl)).1

/-- C9: if the transport accepts the chunks before position `i` and throws
`e` on chunk `i`, the dispatch delivers exactly the earlier chunks in order,
attempts chunk `i` once (no retry), attempts nothing after it, and returns
the transport error unchanged. -/
theorem dispatch_failure_aborts {E : Type} (f : List Char → Except E Unit)
    (text : List Char) (pre : List (List Char)) (c : List Char)
    (post : List (List Char)) (e : E)
    (hsplit : splitMessage text TWITCH_MAX_MSG_LENGTH = pre ++ c :: post)
    (hpre : ∀ x ∈ pre, f x = Except.ok ())
    (hc : f c = Except.error e) :
    sendMessageRun f text =
      (pre.flatMap
          (fun x => [DispatchEvent.admission, DispatchEvent.delivered x]) ++
        [DispatchEvent.admission, DispatchEvent.failed c e],
       Except.error e) := by
  rw [sendMessageRun, hsplit]
  clear hsplit
  induction pre with
  | nil =>
    simp [dispatchLoop, hc]
  | cons p ps ih =>
    have hp : f p = Except.ok () := hpre p (List.mem_cons_self p ps)
    have hps : ∀ x ∈ ps, f x = Except.ok () :=
      fun x hx => hpre x (List.mem_cons_of_mem p hx)
    simp only [List.cons_append, dispatchLoop, List.append_eq, hp,
      List.flatMap_cons]
    rw [ih hps]
    simp

/-- C9 witness: a one-chunk message whose transport throws `7` yields one
admission, one failed attempt, and the error `7` unchanged. -/
theorem dispatch_failure_aborts_witness :
    sendMessageRun (fun _ => (Except.error 7 : Except Nat Unit)) ['h', 'i'] =
      ([DispatchEvent.admission, DispatchEvent.failed ['h', 'i'] 7],
       Except.error 7) :=
  dispatch_failure_aborts (fun _ => Except.error 7) ['h', 'i'] [] ['h', 'i']
    [] 7 rfl (by simp) rfl
